import Mathlib

/-!
Verification of the knowledge-graph loader pipeline.

A shallow embedding of `src/knowledge-graph/main.py`: the data model
(`EntityConnection`, `Document`, `DocumentSentence`, extraction records),
the connection filters, the cache (checkpoint) serialization, the
per-sentence retry loop of the extraction workers, the query builder and
the store-append concurrency model, together with theorems settling the
spec claims about them.

Python `float` values are modelled as rationals (`ℚ`); the spec itself
treats confidence as an opaque decimal.  Machinery external to the
repository (the `csv` module, `spacy`, the thread scheduler) is modelled
at the granularity of its interface contract: CSV files as lists of
string rows, the stop-word set as a parameter, thread interleavings as
explicit schedules.
-/

/-- Mirrors class `EntityConnection` (main.py lines 41-60): five fields,
`__eq__` is structural equality over all five. -/
structure EntityConnection where
  from_entity : String
  to_entity : String
  relationship : String
  confidence : ℚ
  file_name : String
deriving DecidableEq

/-- Mirrors class `Document` (main.py lines 27-32). -/
structure Document where
  file_name : String
  sentences : List String
deriving DecidableEq

/-- Mirrors class `DocumentSentence` (main.py lines 34-39). -/
structure DocumentSentence where
  document : Document
  sentence : String
deriving DecidableEq

/-! ## The deduplication pass

`filter_connections_dups` (main.py lines 284-301) walks the list with an
index `i`; when `connections[i]` is already a member of `no_dup_list` it
calls `connections.remove(connection)`, which deletes the *first*
value-equal occurrence in the list, and leaves `i` unchanged; otherwise
it appends the element to `no_dup_list` and advances `i`.  The loop is
embedded with explicit fuel; one unit of fuel per iteration, and every
iteration either consumes one unexamined element (duplicate branch: the
list shrinks by one in front of `i`) or advances `i`, so
`length + 1` fuel always suffices. -/
def dedupLoopF : ℕ → List EntityConnection → ℕ → List EntityConnection → List EntityConnection
  | 0, conns, _, _ => conns
  | fuel + 1, conns, i, noDup =>
    if h : i < conns.length then
      let c := conns.get ⟨i, h⟩
      if c ∈ noDup then
        dedupLoopF fuel (conns.erase c) i noDup
      else
        dedupLoopF fuel conns (i + 1) (noDup ++ [c])
    else conns

/-- Embeds `filter_connections_dups` (main.py lines 284-301): the while
loop started at `i = 0` with an empty `no_dup_list`. -/
def filter_connections_dups (conns : List EntityConnection) : List EntityConnection :=
  dedupLoopF (conns.length + 1) conns 0 []

/-- The net effect of one examined element on the prefix of examined
elements: the first value-equal copy is erased and the element lands at
the end.  (When the element is fresh the erase is a no-op.) -/
def dedupStep (acc : List EntityConnection) (x : EntityConnection) : List EntityConnection :=
  acc.erase x ++ [x]

/-- Modelled from the spec: "scan left to right; keep the first
occurrence of each value-equal Connection (all five fields equal); drop
later duplicates", carrying the set of already-kept values. -/
def keepFirstAux : List EntityConnection → List EntityConnection → List EntityConnection
  | _, [] => []
  | seen, x :: xs =>
    if x ∈ seen then keepFirstAux seen xs
    else x :: keepFirstAux (seen ++ [x]) xs

/-- Modelled from the spec: the keep-first-occurrence subsequence of a
list of connections. -/
def spec_keep_first (l : List EntityConnection) : List EntityConnection :=
  keepFirstAux [] l

/-! ## Concrete connections used in counterexamples and witnesses -/

/-- A sample connection. -/
def connA : EntityConnection :=
  ⟨"alice", "bob", "knows", mkRat 9 10, "a.txt"⟩

/-- A second sample connection, different from `connA` in every field. -/
def connB : EntityConnection :=
  ⟨"carol", "dave", "likes", mkRat 1 2, "b.txt"⟩

/-! ## The stop-word removal pass

`filter_connections_stop_words` (main.py lines 267-282): same while-loop
shape as the dedup pass, removing any connection whose case-folded
`from_entity` is in the stop-word set of the segmentation collaborator.
The stop-word set is external (spacy); it is passed as a parameter. -/

/-- The loop's removal test: `connection.from_entity.lower() in
nlp.Defaults.stop_words` (main.py line 274). -/
def is_stop_word (stopWords : List String) (c : EntityConnection) : Bool :=
  c.from_entity.toLower ∈ stopWords

/-- Fuel-indexed embedding of the while loop of
`filter_connections_stop_words`; `connections.remove` deletes the first
value-equal occurrence, exactly as in the dedup loop. -/
def stopLoopF (stopWords : List String) : ℕ → List EntityConnection → ℕ → List EntityConnection
  | 0, conns, _ => conns
  | fuel + 1, conns, i =>
    if h : i < conns.length then
      let c := conns.get ⟨i, h⟩
      if is_stop_word stopWords c then
        stopLoopF stopWords fuel (conns.erase c) i
      else
        stopLoopF stopWords fuel conns (i + 1)
    else conns

/-- Embeds `filter_connections_stop_words` (main.py lines 267-282). -/
def filter_connections_stop_words (stopWords : List String)
    (conns : List EntityConnection) : List EntityConnection :=
  stopLoopF stopWords (conns.length + 1) conns 0

/-- Embeds `filter_connections` (main.py lines 303-314): the dedup pass
followed by the stop-word pass.  (The write of the filtered checkpoint
is disk state, handled with the cache model.) -/
def filter_connections (stopWords : List String)
    (conns : List EntityConnection) : List EntityConnection :=
  filter_connections_stop_words stopWords (filter_connections_dups conns)

/-! ## Decimal text for confidence values

Python renders a `float` with `str()` (shortest decimal text that
re-reads to the same value, always with at least one fractional digit)
and re-reads it with `float()`.  Confidence is modelled as `ℚ` and its
serialization as exact decimal text: every IEEE float value is a
rational whose reduced denominator divides a power of ten, so these are
the values the renderer is exact on. -/

/-- Multiplicity of the prime `p` in `n`, computed with fuel `n`. -/
def countFactorsAux (p : ℕ) : ℕ → ℕ → ℕ
  | 0, _ => 0
  | fuel + 1, n => if n ≠ 0 ∧ n % p = 0 then countFactorsAux p fuel (n / p) + 1 else 0

/-- Multiplicity of the prime `p` in `n`. -/
def countFactors (p n : ℕ) : ℕ := countFactorsAux p n n

/-- Number of fractional digits used for `q`: enough to clear the
denominator, and at least one (Python float text always shows one). -/
def decExp (q : ℚ) : ℕ :=
  max 1 (max (countFactors 2 q.den) (countFactors 5 q.den))

/-- The scaled integer mantissa `q * 10 ^ decExp q` (exact whenever
`q.den` divides `10 ^ decExp q`). -/
def decMantissa (q : ℚ) : ℤ :=
  q.num * ((10 ^ decExp q) / q.den : ℕ)

/-- Little-endian base-10 digits with fuel (executable mirror of
`Nat.digits 10`). -/
def toDigitsLE : ℕ → ℕ → List ℕ
  | 0, _ => []
  | fuel + 1, n => if n = 0 then [] else n % 10 :: toDigitsLE fuel (n / 10)

/-- Little-endian base-10 digits of `n`. -/
def natDigits (n : ℕ) : List ℕ := toDigitsLE n n

/-- The character of a decimal digit. -/
def digitChar (d : ℕ) : Char := Char.ofNat (48 + d)

/-- Back from a character to a decimal digit. -/
def charDigit (c : Char) : Option ℕ :=
  if 48 ≤ c.toNat ∧ c.toNat ≤ 57 then some (c.toNat - 48) else none

/-- Decimal text of the scaled integer `m / 10 ^ e`: sign, integer
digits, `'.'`, and exactly `e` fractional digits. -/
def renderDecCore (m : ℤ) (e : ℕ) : String :=
  let ds := natDigits m.natAbs
  let padded := ds ++ List.replicate (e + 1 - ds.length) 0
  let frac := (padded.take e).reverse
  let ipart := (padded.drop e).reverse
  (if m < 0 then "-" else "") ++
    String.mk (ipart.map digitChar) ++ "." ++ String.mk (frac.map digitChar)

/-- Decimal text of a rational. -/
def renderDec (q : ℚ) : String :=
  renderDecCore (decMantissa q) (decExp q)

/-- Digits of a character list, `none` on any non-digit. -/
def digitsOfChars (cs : List Char) : Option (List ℕ) := cs.mapM charDigit

/-- Parses an unsigned decimal string (an optional single `'.'`),
mirroring the fragment of Python `float()` that reads back what `str()`
wrote.  `none` models a raised `ValueError`. -/
def parseDecNonneg (cs : List Char) : Option ℚ :=
  let ipart := cs.takeWhile (fun c => c ≠ '.')
  let rest := cs.dropWhile (fun c => c ≠ '.')
  let fpart := match rest with
    | _ :: fs => fs
    | [] => []
  if ipart = [] ∧ fpart = [] then none
  else
    match digitsOfChars ipart, digitsOfChars fpart with
    | some ids, some fds =>
      some (mkRat ((Nat.ofDigits 10 ids.reverse : ℤ) * 10 ^ fds.length +
        (Nat.ofDigits 10 fds.reverse : ℤ)) (10 ^ fds.length))
    | _, _ => none

/-- Parses a decimal string with an optional leading minus sign. -/
def parseDec (s : String) : Option ℚ :=
  match s.data with
  | [] => none
  | c :: cs =>
    if c = '-' then (parseDecNonneg cs).map (fun q => -q)
    else parseDecNonneg (c :: cs)

/-! ## The query builder

`build_queries_from_connections` (main.py lines 316-327): for each
connection, escape embedded double quotes in the three string fields
(`.replace('"', '\\"')`), interpolate them plus the confidence into one
MERGE statement, and put it on the query queue.  The queue is modelled
as the list of statements in enqueue order.  Confidence interpolation
(`f"...{connection.confidence}..."`, Python `str()` on a float) is
`renderDec`. -/

/-- Character-level embedding of `str.replace('"', '\\"')` (the pattern
is a single character, so `replace` is a per-character map). -/
def escapeQuotes : List Char → List Char
  | [] => []
  | c :: cs =>
    if c = '"' then '\\' :: '"' :: escapeQuotes cs
    else c :: escapeQuotes cs

/-- `connection.from_entity.replace('"', '\\"')` and friends. -/
def escapeQuotesStr (s : String) : String := String.mk (escapeQuotes s.data)

/-- The statement built from one connection (loop body, main.py
lines 318-325). -/
def build_query (c : EntityConnection) : String :=
  "MERGE (f:Entity \x7b name: \"" ++ escapeQuotesStr c.from_entity ++ "\" \x7d) " ++
    "MERGE (t:Entity \x7b name: \"" ++ escapeQuotesStr c.to_entity ++ "\" \x7d) " ++
    "MERGE (f)-[:RELATION \x7b name: \"" ++ escapeQuotesStr c.relationship ++
    "\", confidence: " ++ renderDec c.confidence ++ " \x7d]->(t);"

/-- Embeds `build_queries_from_connections` (main.py lines 316-327):
appends one statement per connection to the queue, in iteration order. -/
def build_queries_from_connections (connections : List EntityConnection)
    (queries : List String) : List String :=
  connections.foldl (fun qs c => qs ++ [build_query c]) queries

/-! ## The checkpoint cache

`cache_data` (main.py lines 147-154) writes one CSV row per connection
with the five fields in fixed order and no header; `get_cache_connections`
(lines 162-184) reads them back, skipping blank rows and parsing the
confidence with `float()`.  The `csv` module is external to the
repository, so the file is modelled at row granularity (a list of string
rows); `str()`/`float()` on the confidence are `renderDec`/`parseDec`. -/

/-- The row written for one connection (main.py line 152): fixed field
order, confidence as decimal text. -/
def cacheRow (c : EntityConnection) : List String :=
  [c.from_entity, c.to_entity, c.relationship, renderDec c.confidence, c.file_name]

/-- Embeds `cache_data` (main.py lines 147-154): one row per connection,
in store order, no header row. -/
def cache_data (connections : List EntityConnection) : List (List String) :=
  connections.map cacheRow

/-- The reader loop body of `get_cache_connections` (lines 174-183):
a blank row is skipped (`continue`); a row with fewer than five fields
(`IndexError`) or an unparseable confidence (`ValueError`) raises, which
is `.error`. -/
def parseCacheRow : List String → Except Unit (Option EntityConnection)
  | [] => .ok none
  | f :: t :: r :: conf :: file :: _ =>
    match parseDec conf with
    | some q => .ok (some ⟨f, t, r, q, file⟩)
    | none => .error ()
  | _ => .error ()

/-- Embeds `get_cache_connections` (main.py lines 162-184).  The
argument is the cache file: `none` when the file does not exist (the
function returns Python `None`), otherwise its rows. -/
def get_cache_connections (file : Option (List (List String))) :
    Except Unit (Option (List EntityConnection)) :=
  match file with
  | none => .ok none
  | some rows =>
    match rows.mapM parseCacheRow with
    | .ok parsed => .ok (some (parsed.filterMap id))
    | .error e => .error e

/-- Embeds `init_connection_list` (main.py lines 129-132): the store is
the cached list when the checkpoint file exists, else a fresh empty
list. -/
def init_connection_list (file : Option (List (List String))) :
    Except Unit (List EntityConnection) :=
  match get_cache_connections file with
  | .error e => .error e
  | .ok none => .ok []
  | .ok (some cs) => .ok cs

/-! ## Extraction records and the worker loop

The external extraction service (OpenIE) returns, per sentence, a list
of records `extraction["extraction"]["arg1"|"rel"|"arg2s"]` with a
top-level `extraction["confidence"]` (main.py lines 203-212).  Service
behavior is a parameter: for each sentence and each value of the retry
counter it either returns records or raises (`.error`). -/

/-- One argument or relation phrase: the `{"text": ...}` sub-object. -/
structure ExtractionPart where
  text : String
deriving DecidableEq

/-- The `extraction["extraction"]` sub-object. -/
structure ExtractionTriple where
  arg1 : ExtractionPart
  rel : ExtractionPart
  arg2s : List ExtractionPart
deriving DecidableEq

/-- One extraction record returned by the service. -/
structure Extraction where
  extraction : ExtractionTriple
  confidence : ℚ
deriving DecidableEq

/-- `os.path.basename(file_name.replace("\\", os.sep))` with POSIX
`os.sep`: backslashes become slashes, then everything after the last
slash is kept. -/
def os_path_basename (s : String) : String :=
  String.mk
    (((s.data.map (fun c => if c = '\\' then '/' else c)).reverse.takeWhile
      (fun c => c ≠ '/')).reverse)

/-- Embeds `build_connection_from_extraction` (main.py lines 203-212):
appends one connection iff the record has at least one object argument;
only the first object argument is used. -/
def build_connection_from_extraction (extraction : Extraction) (document : Document)
    (connection_list : List EntityConnection) : List EntityConnection :=
  match extraction.extraction.arg2s with
  | [] => connection_list
  | a2 :: _ =>
    connection_list ++
      [{ from_entity := extraction.extraction.arg1.text
         to_entity := a2.text
         relationship := extraction.extraction.rel.text
         confidence := extraction.confidence
         file_name := os_path_basename document.file_name }]

/-- Default retry bound (main.py line 20). -/
def RELATIONSHIP_EXTRACTION_SERVICE_RETRIES : ℕ := 5

/-- The retry loop of `build_connections_from_document` (main.py
lines 225-235): `current_try` counts down from the bound; each attempt
calls the service (the call is counted), a raise sleeps and decrements,
success breaks.  Returns the records (or `none` after exhaustion) and
the number of service calls made. -/
def retryExtract (oracle : ℕ → Except Unit (List Extraction)) :
    ℕ → Option (List Extraction) × ℕ
  | 0 => (none, 0)
  | t + 1 =>
    match oracle (t + 1) with
    | .ok exts => (some exts, 1)
    | .error _ =>
      let r := retryExtract oracle t
      (r.1, r.2 + 1)

/-- The per-worker mutable state: the shared store, the worker's
processed counter (line 216), calls to the service, and error-level log
records of dropped sentences (line 238). -/
structure WorkerState where
  connection_list : List EntityConnection
  sentences_processed : ℕ
  service_calls : ℕ
  error_logs : ℕ
deriving DecidableEq

/-- One iteration of the worker loop (main.py lines 217-242) on a
dequeued sentence: retry-call the service; on exhaustion log the drop at
error level and continue; on success count the sentence as processed and
append a connection per usable record. -/
def process_sentence (oracle : DocumentSentence → ℕ → Except Unit (List Extraction))
    (st : WorkerState) (ds : DocumentSentence) : WorkerState :=
  match retryExtract (oracle ds) RELATIONSHIP_EXTRACTION_SERVICE_RETRIES with
  | (none, calls) =>
    { st with
      service_calls := st.service_calls + calls
      error_logs := st.error_logs + 1 }
  | (some exts, calls) =>
    { st with
      connection_list :=
        exts.foldl (fun l ext => build_connection_from_extraction ext ds.document l)
          st.connection_list
      sentences_processed := st.sentences_processed + 1
      service_calls := st.service_calls + calls }

/-- Embeds `build_connections_from_document` (main.py lines 214-242):
the worker drains its share of the queue in order. -/
def build_connections_from_document
    (oracle : DocumentSentence → ℕ → Except Unit (List Extraction))
    (st : WorkerState) (items : List DocumentSentence) : WorkerState :=
  items.foldl (process_sentence oracle) st

/-- Result of the extraction phase: the store plus the observable
counters the claims speak about. -/
structure PhaseResult where
  store : List EntityConnection
  service_calls : ℕ
  sentences_enqueued : ℕ
deriving DecidableEq

/-- Embeds `build_connections_from_documents` (main.py lines 244-265):
when the store was populated by the cache the whole phase is skipped;
otherwise all sentences are enqueued in document order then sentence
order and the queue is drained.  The worker pool is modelled as a
sequential drain (one scheduler interleaving); interleaved appends are
treated by the scheduler model below. -/
def build_connections_from_documents
    (oracle : DocumentSentence → ℕ → Except Unit (List Extraction))
    (connection_list : List EntityConnection) (documents : List Document) :
    PhaseResult :=
  if 0 < connection_list.length then
    ⟨connection_list, 0, 0⟩
  else
    let queue := documents.flatMap (fun d => d.sentences.map (fun s => DocumentSentence.mk d s))
    let final := build_connections_from_document oracle ⟨connection_list, 0, 0, 0⟩ queue
    ⟨final.connection_list, final.service_calls, queue.length⟩

/-- Embeds the store-relevant part of `main` (main.py lines 329-356):
seed the store from the cache, run the (possibly skipped) extraction
phase, then apply `filter_connections` to the store -- unconditionally.
Returns the filtered store together with the phase observables. -/
def main_filtered_store (stopWords : List String)
    (oracle : DocumentSentence → ℕ → Except Unit (List Extraction))
    (cacheFile : Option (List (List String))) (documents : List Document) :
    Except Unit (List EntityConnection × PhaseResult) :=
  match init_connection_list cacheFile with
  | .error e => .error e
  | .ok store0 =>
    let phase := build_connections_from_documents oracle store0 documents
    .ok (filter_connections stopWords phase.store, phase)

/-- The connections contributed by one successful service response. -/
def connections_of (exts : List Extraction) (doc : Document) : List EntityConnection :=
  exts.foldl (fun l ext => build_connection_from_extraction ext doc l) []

/-- A concrete extraction record with two object arguments. -/
def ext1 : Extraction :=
  ⟨⟨⟨"alice"⟩, ⟨"knows"⟩, [⟨"bob"⟩, ⟨"carol"⟩]⟩, mkRat 9 10⟩

/-- A concrete document. -/
def doc1 : Document := ⟨"data/f.txt", ["alice knows bob."]⟩

/-- Structural decidable equality for `Except`, used to evaluate the
embedded pipeline on concrete inputs. -/
instance exceptDecidableEq {ε α : Type} [DecidableEq ε] [DecidableEq α] :
    DecidableEq (Except ε α) := fun a b =>
  match a, b with
  | .ok x, .ok y =>
    if h : x = y then isTrue (by rw [h])
    else isFalse (by intro hc; injection hc; contradiction)
  | .error e, .error f =>
    if h : e = f then isTrue (by rw [h])
    else isFalse (by intro hc; injection hc; contradiction)
  | .ok _, .error _ => isFalse (by intro hc; cases hc)
  | .error _, .ok _ => isFalse (by intro hc; cases hc)

/-- A service stub that raises on every attempt but the last
(`current_try = 1`) for every sentence. -/
def oracleSucceedLast : DocumentSentence → ℕ → Except Unit (List Extraction) :=
  fun _ t => if 2 ≤ t then .error () else .ok [ext1]

/-- A service stub that always raises. -/
def oracleAlwaysFail : DocumentSentence → ℕ → Except Unit (List Extraction) :=
  fun _ _ => .error ()

/-- A concrete queued sentence. -/
def ds1 : DocumentSentence := ⟨doc1, "alice knows bob."⟩

/-! ## Concurrent appends to the Connection Store

`build_connections_from_documents` runs W workers (main.py lines
256-258) that all append to the shared `connection_list` through
`build_connection_from_extraction` (line 212).  In CPython
`list.append` is a single atomic operation under the global interpreter
lock -- the contract the spec demands of the store.  The interleaving of
the workers is modelled as an explicit schedule: at each step one worker
appends the next connection of its private work list to the shared
store. -/

/-- One scheduler step: worker `w` appends the head of its pending list
to the store; a worker with nothing left (or an out-of-range index) does
nothing. -/
def sched_step (store : List EntityConnection) (jobs : List (List EntityConnection))
    (w : ℕ) : List EntityConnection × List (List EntityConnection) :=
  match jobs, w with
  | [], _ => (store, [])
  | [] :: js, 0 => (store, [] :: js)
  | (x :: rest) :: js, 0 => (store ++ [x], rest :: js)
  | j :: js, w + 1 =>
    let r := sched_step store js w
    (r.1, j :: r.2)

/-- Runs a whole schedule of worker steps from an initial store and the
workers' pending lists. -/
def run_schedule (schedule : List ℕ) (store : List EntityConnection)
    (jobs : List (List EntityConnection)) :
    List EntityConnection × List (List EntityConnection) :=
  match schedule with
  | [] => (store, jobs)
  | s :: sched =>
    let r := sched_step store jobs s
    run_schedule sched r.1 r.2

/-- The pending list of worker `w`. -/
def pending (jobs : List (List EntityConnection)) (w : ℕ) : List EntityConnection :=
  match jobs, w with
  | [], _ => []
  | j :: _, 0 => j
  | _ :: js, w + 1 => pending js w

/-! ### Loop invariant for the dedup pass -/

theorem dedupLoopF_eq_foldl :
    ∀ (suf : List EntityConnection) (fuel : ℕ) (pre noDup : List EntityConnection),
      suf.length < fuel → pre.Nodup → (∀ x, x ∈ noDup ↔ x ∈ pre) →
      dedupLoopF fuel (pre ++ suf) pre.length noDup = suf.foldl dedupStep pre := by
  intro suf
  induction suf with
  | nil =>
    intro fuel pre noDup hfuel _ _
    match fuel, hfuel with
    | f + 1, _ =>
      simp [dedupLoopF]
  | cons x rest ih =>
    intro fuel pre noDup hfuel hnodup hmem
    match fuel, hfuel with
    | f + 1, hfuel =>
      have hlt : pre.length < (pre ++ x :: rest).length := by
        simp [List.length_append]
      have hget : (pre ++ x :: rest).get ⟨pre.length, hlt⟩ = x := by
        simp [List.get_eq_getElem, List.getElem_append_right, Nat.le_refl]
      rw [dedupLoopF]
      simp only [hlt, dif_pos, hget]
      by_cases hx : x ∈ noDup
      · have hxpre : x ∈ pre := (hmem x).mp hx
        rw [if_pos hx]
        have herase : (pre ++ x :: rest).erase x = (pre.erase x ++ [x]) ++ rest := by
          rw [List.erase_append_left _ hxpre, List.append_assoc]
          simp
        have hlen : pre.length = (pre.erase x ++ [x]).length := by
          simp [List.length_erase_of_mem hxpre]
          have : 1 ≤ pre.length := List.length_pos.mpr (by
            intro hnil; rw [hnil] at hxpre; exact List.not_mem_nil x hxpre)
          omega
        have hnodup' : (pre.erase x ++ [x]).Nodup := by
          have h1 : (pre.erase x).Nodup := hnodup.erase x
          have h2 : x ∉ pre.erase x := by
            intro hc
            exact ((hnodup.mem_erase_iff).mp hc).1 rfl
          simp [List.nodup_append, h1, h2]
        have hmem' : ∀ y, y ∈ noDup ↔ y ∈ pre.erase x ++ [x] := by
          intro y
          rw [hmem y]
          constructor
          · intro hy
            by_cases hyx : y = x
            · subst hyx; simp
            · simp [hnodup.mem_erase_iff, hyx, hy]
          · intro hy
            rcases List.mem_append.mp hy with hy | hy
            · exact ((hnodup.mem_erase_iff).mp hy).2
            · rw [List.mem_singleton.mp hy]; exact hxpre
        rw [herase, hlen, ih f (pre.erase x ++ [x]) noDup
          (by simp at hfuel; omega) hnodup' hmem']
        have hstep : dedupStep pre x = pre.erase x ++ [x] := rfl
        simp [List.foldl_cons, hstep]
      · have hxpre : x ∉ pre := fun hc => hx ((hmem x).mpr hc)
        rw [if_neg hx]
        have hsplit : pre ++ x :: rest = (pre ++ [x]) ++ rest := by simp
        have hlen : pre.length + 1 = (pre ++ [x]).length := by simp
        have hnodup' : (pre ++ [x]).Nodup := by
          simp [List.nodup_append, hnodup, hxpre]
        have hmem' : ∀ y, y ∈ noDup ++ [x] ↔ y ∈ pre ++ [x] := by
          intro y
          simp [List.mem_append, hmem y]
        rw [hsplit, hlen, ih f (pre ++ [x]) (noDup ++ [x])
          (by simp at hfuel; omega) hnodup' hmem']
        have hstep : dedupStep pre x = pre ++ [x] := by
          simp [dedupStep, List.erase_of_not_mem hxpre]
        simp [List.foldl_cons, hstep]

theorem filter_connections_dups_eq_foldl (l : List EntityConnection) :
    filter_connections_dups l = l.foldl dedupStep [] := by
  have := dedupLoopF_eq_foldl l (l.length + 1) [] []
    (Nat.lt_succ_self _) List.nodup_nil (by simp)
  simpa [filter_connections_dups] using this

/-- Appending one element to a list erases the earlier copy from its
dedup and puts the element at the end: `List.dedup` keeps last
occurrences. -/
theorem dedup_concat (l : List EntityConnection) (x : EntityConnection) :
    (l ++ [x]).dedup = l.dedup.erase x ++ [x] := by
  induction l with
  | nil => simp
  | cons a l ih =>
    by_cases hax : a = x
    · subst hax
      have hmem : a ∈ l ++ [a] := by simp
      rw [List.cons_append, List.dedup_cons_of_mem hmem, ih]
      by_cases hal : a ∈ l.dedup
      · rw [List.dedup_cons_of_mem' hal]
      · rw [List.dedup_cons_of_not_mem' hal, List.erase_cons_head,
          List.erase_of_not_mem hal]
    · by_cases hal : a ∈ l
      · have hmem : a ∈ l ++ [x] := by simp [hal]
        rw [List.cons_append, List.dedup_cons_of_mem hmem, ih,
          List.dedup_cons_of_mem hal]
      · have hmem : a ∉ l ++ [x] := by simp [hal, hax]
        rw [List.cons_append, List.dedup_cons_of_not_mem hmem, ih,
          List.dedup_cons_of_not_mem hal,
          List.erase_cons_tail]
        · simp
        · simp [hax]

theorem foldl_dedupStep_eq_dedup (l : List EntityConnection) :
    l.foldl dedupStep [] = l.dedup := by
  induction l using List.reverseRecOn with
  | nil => simp
  | append_singleton l x ih =>
    rw [List.foldl_append, List.foldl_cons, List.foldl_nil, dedup_concat]
    rw [ih]
    rfl

/-- The dedup pass of the code computes `List.dedup`: one copy per
value-equal class, ordered by last occurrence. -/
theorem filter_dups_eq_dedup (l : List EntityConnection) :
    filter_connections_dups l = l.dedup := by
  rw [filter_connections_dups_eq_foldl, foldl_dedupStep_eq_dedup]

/-! ### Relating the spec-side keep-first pass to `List.dedup` -/

theorem dedup_filter (p : EntityConnection → Bool) (l : List EntityConnection) :
    (l.filter p).dedup = l.dedup.filter p := by
  induction l with
  | nil => simp
  | cons a l ih =>
    by_cases hp : p a
    · rw [List.filter_cons_of_pos hp]
      by_cases hal : a ∈ l
      · have h1 : a ∈ l.filter p := List.mem_filter.mpr ⟨hal, hp⟩
        rw [List.dedup_cons_of_mem h1, ih, List.dedup_cons_of_mem hal]
      · have h1 : a ∉ l.filter p := fun hc => hal (List.mem_filter.mp hc).1
        rw [List.dedup_cons_of_not_mem h1, ih, List.dedup_cons_of_not_mem hal,
          List.filter_cons_of_pos hp]
    · rw [List.filter_cons_of_neg (by simpa using hp)]
      by_cases hal : a ∈ l
      · rw [ih, List.dedup_cons_of_mem hal]
      · rw [ih, List.dedup_cons_of_not_mem hal,
          List.filter_cons_of_neg (by simpa using hp)]

theorem keepFirstAux_eq (l : List EntityConnection) :
    ∀ seen, keepFirstAux seen l =
      ((l.filter (fun y => decide (y ∉ seen))).reverse.dedup).reverse := by
  induction l with
  | nil => intro seen; simp [keepFirstAux]
  | cons x xs ih =>
    intro seen
    by_cases hx : x ∈ seen
    · rw [keepFirstAux, if_pos hx, ih seen,
        List.filter_cons_of_neg (by simpa using hx)]
    · rw [keepFirstAux, if_neg hx, ih (seen ++ [x]),
        List.filter_cons_of_pos (by simpa using hx)]
      have hfilter : xs.filter (fun y => decide (y ∉ seen ++ [x])) =
          (xs.filter (fun y => decide (y ∉ seen))).filter (fun y => y != x) := by
        rw [List.filter_filter]
        apply List.filter_congr
        intro y _
        by_cases h1 : y ∈ seen <;> by_cases h2 : y = x <;>
          simp [h1, h2, List.mem_append, bne_iff_ne]
      have hnodup : ((xs.filter (fun y => decide (y ∉ seen))).reverse.dedup).Nodup :=
        List.nodup_dedup _
      rw [hfilter, ← List.filter_reverse, dedup_filter,
        ← hnodup.erase_eq_filter x]
      rw [List.reverse_cons, dedup_concat, List.reverse_append]
      simp

theorem spec_keep_first_reverse_eq_dedup (l : List EntityConnection) :
    (spec_keep_first l.reverse).reverse = l.dedup := by
  rw [spec_keep_first, keepFirstAux_eq]
  have : l.reverse.filter (fun y => decide (y ∉ ([] : List EntityConnection))) =
      l.reverse := by
    apply List.filter_eq_self.mpr
    intro a _
    simp
  rw [this]
  simp

/-- C1, as stated, is false: on `[connA, connB, connA]` the dedup pass of
the code returns `[connB, connA]` (the surviving copy of a duplicated
value sits at its last occurrence), while the keep-first-occurrence
subsequence is `[connA, connB]`. -/
theorem C1_counterexample :
    filter_connections_dups [connA, connB, connA] ≠
      spec_keep_first [connA, connB, connA] := by
  decide

/-- C1 (amended): the dedup pass keeps exactly one copy of each
value-equal Connection, but the survivors appear in order of their LAST
occurrence in the input, not their first: the result equals the reverse
of the keep-first-occurrence subsequence of the reversed input. -/
theorem C1_dedup_keeps_last_occurrence (l : List EntityConnection) :
    filter_connections_dups l = (spec_keep_first l.reverse).reverse := by
  rw [filter_dups_eq_dedup, spec_keep_first_reverse_eq_dedup]

/-- C8: the deduplication pass is idempotent — running it on its own
output removes nothing. -/
theorem C8_dedup_idempotent (l : List EntityConnection) :
    filter_connections_dups (filter_connections_dups l) =
      filter_connections_dups l := by
  rw [filter_dups_eq_dedup, filter_dups_eq_dedup, List.dedup_idem]

theorem stopLoopF_eq_filter (stopWords : List String) :
    ∀ (suf : List EntityConnection) (fuel : ℕ) (pre : List EntityConnection),
      suf.length < fuel →
      (∀ c ∈ pre, is_stop_word stopWords c = false) →
      stopLoopF stopWords fuel (pre ++ suf) pre.length =
        pre ++ suf.filter (fun c => !(is_stop_word stopWords c)) := by
  intro suf
  induction suf with
  | nil =>
    intro fuel pre hfuel _
    match fuel, hfuel with
    | f + 1, _ => simp [stopLoopF]
  | cons x rest ih =>
    intro fuel pre hfuel hpre
    match fuel, hfuel with
    | f + 1, hfuel =>
      have hlt : pre.length < (pre ++ x :: rest).length := by
        simp [List.length_append]
      have hget : (pre ++ x :: rest).get ⟨pre.length, hlt⟩ = x := by
        simp [List.get_eq_getElem, List.getElem_append_right, Nat.le_refl]
      rw [stopLoopF]
      simp only [hlt, dif_pos, hget]
      by_cases hx : is_stop_word stopWords x
      · rw [if_pos hx]
        have hxpre : x ∉ pre := by
          intro hc
          rw [hpre x hc] at hx
          exact Bool.false_ne_true hx
        have herase : (pre ++ x :: rest).erase x = pre ++ rest := by
          rw [List.erase_append_right _ hxpre, List.erase_cons_head]
        rw [herase, ih f pre (by simp at hfuel; omega) hpre,
          List.filter_cons_of_neg (by simpa using hx)]
      · rw [if_neg hx]
        have hsplit : pre ++ x :: rest = (pre ++ [x]) ++ rest := by simp
        have hlen : pre.length + 1 = (pre ++ [x]).length := by simp
        have hpre' : ∀ c ∈ pre ++ [x], is_stop_word stopWords c = false := by
          intro c hc
          rcases List.mem_append.mp hc with hc | hc
          · exact hpre c hc
          · rw [List.mem_singleton.mp hc]
            simpa using hx
        rw [hsplit, hlen, ih f (pre ++ [x]) (by simp at hfuel; omega) hpre',
          List.filter_cons_of_pos (by simpa using hx)]
        simp

/-- The stop-word pass of the code is exactly `List.filter` by the
negated stop-word test: survivors in order, nothing else touched. -/
theorem filter_stop_words_eq_filter (stopWords : List String)
    (l : List EntityConnection) :
    filter_connections_stop_words stopWords l =
      l.filter (fun c => !(is_stop_word stopWords c)) := by
  have := stopLoopF_eq_filter stopWords l (l.length + 1) []
    (Nat.lt_succ_self _) (by intro c hc; exact absurd hc (List.not_mem_nil c))
  simpa [filter_connections_stop_words] using this

/-! ### Round trip of the decimal codec -/

theorem toDigitsLE_eq (fuel : ℕ) :
    ∀ n, n ≤ fuel → toDigitsLE fuel n = Nat.digits 10 n := by
  induction fuel with
  | zero =>
    intro n hn
    interval_cases n
    simp [toDigitsLE]
  | succ f ih =>
    intro n hn
    by_cases h0 : n = 0
    · subst h0; simp [toDigitsLE]
    · rw [toDigitsLE, if_neg h0,
        Nat.digits_def' (by norm_num : 1 < 10) (Nat.pos_of_ne_zero h0),
        ih (n / 10) (by
          have := Nat.div_lt_self (Nat.pos_of_ne_zero h0) (by norm_num : 1 < 10)
          omega)]

theorem natDigits_eq (n : ℕ) : natDigits n = Nat.digits 10 n :=
  toDigitsLE_eq n n (Nat.le_refl n)

theorem charDigit_digitChar (d : ℕ) (h : d < 10) :
    charDigit (digitChar d) = some d := by
  interval_cases d <;> rfl

theorem digitChar_ne_dot (d : ℕ) (h : d < 10) : digitChar d ≠ '.' := by
  interval_cases d <;> decide

theorem digitChar_ne_minus (d : ℕ) (h : d < 10) : digitChar d ≠ '-' := by
  interval_cases d <;> decide

theorem digitsOfChars_map_digitChar (ds : List ℕ) (h : ∀ d ∈ ds, d < 10) :
    digitsOfChars (ds.map digitChar) = some ds := by
  induction ds with
  | nil => rfl
  | cons d ds ih =>
    have hd : d < 10 := h d (List.mem_cons_self d ds)
    have hds : ∀ x ∈ ds, x < 10 := fun x hx => h x (List.mem_cons_of_mem d hx)
    simp only [digitsOfChars, List.map_cons, List.mapM_cons,
      charDigit_digitChar d hd]
    rw [show (ds.map digitChar).mapM charDigit = digitsOfChars (ds.map digitChar) from rfl,
      ih hds]
    rfl

theorem takeWhile_until_dot (l fs : List Char) (h : ∀ c ∈ l, c ≠ '.') :
    (l ++ '.' :: fs).takeWhile (fun c => decide (c ≠ '.')) = l := by
  induction l with
  | nil => simp
  | cons c l ih =>
    have hc : c ≠ '.' := h c (List.mem_cons_self c l)
    simp only [List.cons_append, List.takeWhile_cons]
    rw [if_pos (by simpa using hc),
      ih (fun x hx => h x (List.mem_cons_of_mem c hx))]

theorem dropWhile_until_dot (l fs : List Char) (h : ∀ c ∈ l, c ≠ '.') :
    (l ++ '.' :: fs).dropWhile (fun c => decide (c ≠ '.')) = '.' :: fs := by
  induction l with
  | nil => simp
  | cons c l ih =>
    have hc : c ≠ '.' := h c (List.mem_cons_self c l)
    simp only [List.cons_append, List.dropWhile_cons]
    rw [if_pos (by simpa using hc),
      ih (fun x hx => h x (List.mem_cons_of_mem c hx))]

theorem ofDigits_replicate_zero (n : ℕ) :
    Nat.ofDigits 10 (List.replicate n 0) = 0 := by
  induction n with
  | zero => rfl
  | succ n ih => simp [List.replicate_succ, Nat.ofDigits_cons, ih]

theorem parseDecNonneg_core (n e : ℕ) :
    parseDecNonneg
      ((((natDigits n ++ List.replicate (e + 1 - (natDigits n).length) 0).drop e).reverse.map digitChar) ++
        '.' :: (((natDigits n ++ List.replicate (e + 1 - (natDigits n).length) 0).take e).reverse.map digitChar)) =
      some ((n : ℚ) / 10 ^ e) := by
  set ds := natDigits n with hds
  set padded := ds ++ List.replicate (e + 1 - ds.length) 0 with hpadded
  have hpadlen : e < padded.length := by
    simp only [hpadded, List.length_append, List.length_replicate]
    omega
  have hdig : ∀ d ∈ padded, d < 10 := by
    intro d hd
    rcases List.mem_append.mp hd with hd | hd
    · rw [hds, natDigits_eq] at hd
      exact Nat.digits_lt_base (by norm_num) hd
    · rw [List.eq_of_mem_replicate hd]
      norm_num
  have hidig : ∀ d ∈ (padded.drop e).reverse, d < 10 := by
    intro d hd
    exact hdig d (List.drop_subset e padded (List.mem_reverse.mp hd))
  have hfdig : ∀ d ∈ (padded.take e).reverse, d < 10 := by
    intro d hd
    exact hdig d (List.take_subset e padded (List.mem_reverse.mp hd))
  have hnodot : ∀ c ∈ (padded.drop e).reverse.map digitChar, c ≠ '.' := by
    intro c hc
    obtain ⟨d, hd, rfl⟩ := List.mem_map.mp hc
    exact digitChar_ne_dot d (hidig d hd)
  have hne : (padded.drop e).reverse.map digitChar ≠ [] := by
    simp only [ne_eq, List.map_eq_nil_iff, List.reverse_eq_nil_iff,
      List.drop_eq_nil_iff]
    omega
  rw [parseDecNonneg]
  simp only [takeWhile_until_dot _ _ hnodot, dropWhile_until_dot _ _ hnodot]
  rw [if_neg (by
    intro hcon
    exact hne hcon.1)]
  rw [digitsOfChars_map_digitChar _ hidig, digitsOfChars_map_digitChar _ hfdig]
  have hsplit : Nat.ofDigits 10 (padded.take e) + 10 ^ e * Nat.ofDigits 10 (padded.drop e) =
      n := by
    have h1 : padded.take e ++ padded.drop e = padded := List.take_append_drop e padded
    have h2 : (padded.take e).length = e := by
      simp [List.length_take]
      omega
    have h3 : Nat.ofDigits 10 padded =
        Nat.ofDigits 10 (padded.take e) + 10 ^ e * Nat.ofDigits 10 (padded.drop e) := by
      conv_lhs => rw [← h1]
      rw [Nat.ofDigits_append, h2]
    rw [← h3, hpadded, Nat.ofDigits_append, ofDigits_replicate_zero, hds, natDigits_eq,
      Nat.ofDigits_digits]
    ring
  simp only [List.reverse_reverse, List.length_reverse]
  have h2 : (padded.take e).length = e := by
    simp [List.length_take]
    omega
  rw [h2]
  congr 1
  rw [Rat.mkRat_eq_div]
  have hz : ((Nat.ofDigits 10 (padded.take e) : ℤ)) +
      10 ^ e * (Nat.ofDigits 10 (padded.drop e) : ℤ) = (n : ℤ) := by
    exact_mod_cast hsplit
  have hA : ((Nat.ofDigits 10 (padded.drop e) : ℤ) * 10 ^ e +
      (Nat.ofDigits 10 (padded.take e) : ℤ)) = (n : ℤ) := by
    linarith [hz]
  rw [hA]
  push_cast
  ring

theorem parseDec_data_minus (cs : List Char) (s : String) (h : s.data = '-' :: cs) :
    parseDec s = (parseDecNonneg cs).map (fun q => -q) := by
  simp [parseDec, h]

theorem parseDec_data_other (c : Char) (cs : List Char) (s : String)
    (h : s.data = c :: cs) (hc : c ≠ '-') :
    parseDec s = parseDecNonneg (c :: cs) := by
  have h2 : parseDec s =
      if c = '-' then (parseDecNonneg cs).map (fun q => -q)
      else parseDecNonneg (c :: cs) := by
    unfold parseDec
    rw [h]
  rw [h2, if_neg hc]

theorem parseDec_renderDecCore (m : ℤ) (e : ℕ) :
    parseDec (renderDecCore m e) = some ((m : ℚ) / 10 ^ e) := by
  set ds := natDigits m.natAbs with hds
  set padded := ds ++ List.replicate (e + 1 - ds.length) 0 with hpadded
  set ipartC := (padded.drop e).reverse.map digitChar with hipartC
  set fracC := (padded.take e).reverse.map digitChar with hfracC
  have hdata : (renderDecCore m e).data =
      (if m < 0 then ['-'] else []) ++ (ipartC ++ '.' :: fracC) := by
    by_cases hm : m < 0 <;>
      simp [renderDecCore, hm, hipartC, hfracC, hpadded, hds]
  have hpadlen : e < padded.length := by
    simp only [hpadded, List.length_append, List.length_replicate]
    omega
  have hne : ipartC ≠ [] := by
    simp only [hipartC, ne_eq, List.map_eq_nil_iff, List.reverse_eq_nil_iff,
      List.drop_eq_nil_iff]
    omega
  obtain ⟨c0, l0, hip⟩ := List.exists_cons_of_ne_nil hne
  have hc0 : c0 ≠ '-' := by
    have hc0mem : c0 ∈ ipartC := by rw [hip]; exact List.mem_cons_self c0 l0
    obtain ⟨d, hd, rfl⟩ := List.mem_map.mp hc0mem
    apply digitChar_ne_minus
    have : d ∈ padded := List.drop_subset e padded (List.mem_reverse.mp hd)
    rcases List.mem_append.mp this with h1 | h1
    · rw [hds, natDigits_eq] at h1
      exact Nat.digits_lt_base (by norm_num) h1
    · rw [List.eq_of_mem_replicate h1]
      norm_num
  have hcore : parseDecNonneg (ipartC ++ '.' :: fracC) =
      some ((m.natAbs : ℚ) / 10 ^ e) := by
    rw [hipartC, hfracC, hpadded, hds]
    exact parseDecNonneg_core m.natAbs e
  by_cases hm : m < 0
  · rw [parseDec_data_minus (ipartC ++ '.' :: fracC) _ (by rw [hdata, if_pos hm]; rfl),
      hcore]
    simp only [Option.map_some']
    congr 1
    have habs : |m| = -m := abs_of_neg hm
    have : (m.natAbs : ℚ) = -(m : ℚ) := by
      rw [Int.cast_natAbs, habs]
      push_cast
      ring
    rw [this]
    ring
  · rw [parseDec_data_other c0 (l0 ++ '.' :: fracC) _
      (by rw [hdata, if_neg hm, hip]; simp) hc0]
    rw [show c0 :: (l0 ++ '.' :: fracC) = (c0 :: l0) ++ '.' :: fracC from rfl, ← hip,
      hcore]
    congr 1
    have habs : |m| = m := abs_of_nonneg (not_lt.mp hm)
    have : (m.natAbs : ℚ) = (m : ℚ) := by
      rw [Int.cast_natAbs, habs]
    rw [this]

/-- The decimal codec round trip: any rational whose reduced denominator
divides the chosen power of ten (every IEEE float value does) is read
back exactly. -/
theorem parseDec_renderDec (q : ℚ) (hden : q.den ∣ 10 ^ decExp q) :
    parseDec (renderDec q) = some q := by
  rw [renderDec, parseDec_renderDecCore]
  congr 1
  have hk : q.den * (10 ^ decExp q / q.den) = 10 ^ decExp q :=
    Nat.mul_div_cancel' hden
  have hkn : (10 ^ decExp q / q.den) ≠ 0 := by
    intro h0
    rw [h0, Nat.mul_zero] at hk
    have : 0 < 10 ^ decExp q := pow_pos (by norm_num) _
    omega
  have hk0 : ((10 ^ decExp q / q.den : ℕ) : ℚ) ≠ 0 := by
    exact_mod_cast hkn
  have h10 : ((10 : ℚ)) ^ decExp q = (q.den : ℚ) * ((10 ^ decExp q / q.den : ℕ) : ℚ) := by
    exact_mod_cast hk.symm
  have hm' : ((decMantissa q : ℤ) : ℚ) =
      (q.num : ℚ) * ((10 ^ decExp q / q.den : ℕ) : ℚ) := by
    rw [decMantissa, Int.cast_mul, Int.cast_natCast]
  rw [hm', h10, mul_div_mul_right _ _ hk0, Rat.num_div_den]

theorem build_queries_eq_map (connections : List EntityConnection) :
    ∀ queries, build_queries_from_connections connections queries =
      queries ++ connections.map build_query := by
  induction connections with
  | nil => intro queries; simp [build_queries_from_connections]
  | cons c cs ih =>
    intro queries
    rw [build_queries_from_connections, List.foldl_cons]
    rw [show (cs.foldl (fun qs c => qs ++ [build_query c]) (queries ++ [build_query c])) =
      build_queries_from_connections cs (queries ++ [build_query c]) from rfl, ih]
    simp

theorem escapeQuotes_flatMap (cs : List Char) :
    escapeQuotes cs =
      cs.flatMap (fun c => if c = '"' then ['\\', '"'] else [c]) := by
  induction cs with
  | nil => rfl
  | cons c cs ih =>
    by_cases hc : c = '"' <;> simp [escapeQuotes, hc, ih]

/-- C5: the Query Builder emits exactly one Statement per surviving
Connection, in iteration order; the three string fields are escaped only
by replacing each embedded `"` with `\"` and altering nothing else; the
spec's concrete example produces exactly the expected statement, and
`A"B` is emitted as `A\"B`. -/
theorem C5_query_builder :
    (∀ (connections : List EntityConnection) (queries : List String),
        build_queries_from_connections connections queries =
          queries ++ connections.map build_query) ∧
    (∀ s : String, (escapeQuotesStr s).data =
        s.data.flatMap (fun c => if c = '"' then ['\\', '"'] else [c])) ∧
    build_query ⟨"A", "B", "loves", mkRat 9 10, "f.txt"⟩ =
      "MERGE (f:Entity \x7b name: \"A\" \x7d) MERGE (t:Entity \x7b name: \"B\" \x7d) MERGE (f)-[:RELATION \x7b name: \"loves\", confidence: 0.9 \x7d]->(t);" ∧
    escapeQuotesStr "A\"B" = "A\\\"B" := by
  refine ⟨build_queries_eq_map, ?_, ?_, ?_⟩
  · intro s
    exact escapeQuotes_flatMap s.data
  · decide
  · decide

/-- C10: the statement built for a connection reads only the four fields
`from_entity`, `to_entity`, `relationship` and `confidence`; two
connections differing only in `file_name` yield character-identical
statements, so source provenance never reaches the graph store. -/
theorem C10_no_provenance (c₁ c₂ : EntityConnection)
    (hfrom : c₁.from_entity = c₂.from_entity)
    (hto : c₁.to_entity = c₂.to_entity)
    (hrel : c₁.relationship = c₂.relationship)
    (hconf : c₁.confidence = c₂.confidence) :
    build_query c₁ = build_query c₂ := by
  rw [build_query, build_query, hfrom, hto, hrel, hconf]

/-- Witness for C10 at two concrete connections that differ only in
their source file. -/
theorem C10_witness :
    build_query ⟨"alice", "bob", "knows", mkRat 9 10, "a.txt"⟩ =
      build_query ⟨"alice", "bob", "knows", mkRat 9 10, "other.txt"⟩ :=
  C10_no_provenance _ _ rfl rfl rfl rfl

theorem parseCacheRow_cacheRow (c : EntityConnection)
    (h : c.confidence.den ∣ 10 ^ decExp c.confidence) :
    parseCacheRow (cacheRow c) = .ok (some c) := by
  rw [cacheRow, parseCacheRow, parseDec_renderDec c.confidence h]

theorem mapM_parseCacheRow (store : List EntityConnection)
    (h : ∀ c ∈ store, c.confidence.den ∣ 10 ^ decExp c.confidence) :
    (store.map cacheRow).mapM parseCacheRow = .ok (store.map some) := by
  induction store with
  | nil => rfl
  | cons c cs ih =>
    have hc := h c (List.mem_cons_self c cs)
    have hcs : ∀ x ∈ cs, x.confidence.den ∣ 10 ^ decExp x.confidence :=
      fun x hx => h x (List.mem_cons_of_mem c hx)
    rw [List.map_cons, List.mapM_cons, parseCacheRow_cacheRow c hc, ih hcs]
    rfl

/-- C6: writing the Connection Store to the checkpoint and reading it
back yields a value-equal list in the same order, for every store whose
confidence values are exactly representable in decimal (every IEEE
float is); hence a rerun seeded from the checkpoint starts from an
identical store. -/
theorem C6_cache_round_trip (store : List EntityConnection)
    (h : ∀ c ∈ store, c.confidence.den ∣ 10 ^ decExp c.confidence) :
    get_cache_connections (some (cache_data store)) = .ok (some store) ∧
    init_connection_list (some (cache_data store)) = .ok store := by
  have h1 : get_cache_connections (some (cache_data store)) = .ok (some store) := by
    rw [get_cache_connections, cache_data, mapM_parseCacheRow store h]
    simp
  exact ⟨h1, by rw [init_connection_list, h1]⟩

/-- Witness for C6: a concrete two-element store round trips. -/
theorem C6_witness :
    (∀ c ∈ [connA, connB], c.confidence.den ∣ 10 ^ decExp c.confidence) ∧
    (get_cache_connections (some (cache_data [connA, connB])) =
        .ok (some [connA, connB]) ∧
      init_connection_list (some (cache_data [connA, connB])) =
        .ok [connA, connB]) :=
  ⟨by decide, C6_cache_round_trip [connA, connB] (by decide)⟩

/-! ### Per-record and per-sentence theorems -/

theorem build_connection_append (ext : Extraction) (doc : Document)
    (l : List EntityConnection) :
    build_connection_from_extraction ext doc l =
      l ++ build_connection_from_extraction ext doc [] := by
  cases hext : ext.extraction.arg2s <;>
    simp [build_connection_from_extraction, hext]

theorem foldl_build_append (exts : List Extraction) (doc : Document) :
    ∀ store, exts.foldl (fun l ext => build_connection_from_extraction ext doc l) store =
      store ++ connections_of exts doc := by
  induction exts with
  | nil => intro store; simp [connections_of]
  | cons ext exts ih =>
    intro store
    have hco : connections_of (ext :: exts) doc =
        build_connection_from_extraction ext doc [] ++ connections_of exts doc := by
      rw [connections_of, List.foldl_cons,
        ih (build_connection_from_extraction ext doc [])]
    rw [List.foldl_cons, ih (build_connection_from_extraction ext doc store),
      build_connection_append ext doc store, hco, List.append_assoc]

/-- C7: a record appends a connection to the store iff it has at least
one object argument, and the connection's fields are the subject text,
the text of the first object argument (any later ones are ignored), the
relation phrase text, the confidence, and the base name of the owning
document's file. -/
theorem C7_extraction_record (extraction : Extraction) (document : Document)
    (store : List EntityConnection) :
    (extraction.extraction.arg2s = [] →
      build_connection_from_extraction extraction document store = store) ∧
    (∀ a2 rest, extraction.extraction.arg2s = a2 :: rest →
      build_connection_from_extraction extraction document store =
        store ++ [⟨extraction.extraction.arg1.text, a2.text,
          extraction.extraction.rel.text, extraction.confidence,
          os_path_basename document.file_name⟩]) := by
  constructor
  · intro h
    simp [build_connection_from_extraction, h]
  · intro a2 rest h
    simp [build_connection_from_extraction, h]

/-- Witness for C7: the record with object arguments `bob, carol` yields
exactly one connection, to `bob`, tagged with the base file name. -/
theorem C7_witness :
    build_connection_from_extraction ext1 doc1 [] =
      [⟨"alice", "bob", "knows", mkRat 9 10, "f.txt"⟩] := by
  have h := (C7_extraction_record ext1 doc1 []).2 ⟨"bob"⟩ [⟨"carol"⟩] rfl
  rw [h]
  decide

/-! ### The retry bound -/

theorem retryExtract_all_fail (o : ℕ → Except Unit (List Extraction)) (n : ℕ)
    (h : ∀ t, 1 ≤ t → t ≤ n → o t = .error ()) :
    retryExtract o n = (none, n) := by
  induction n with
  | zero => rfl
  | succ n ih =>
    rw [retryExtract, h (n + 1) (by omega) (by omega),
      ih (fun t h1 h2 => h t h1 (by omega))]

theorem retryExtract_last_success (o : ℕ → Except Unit (List Extraction)) (n : ℕ)
    (exts : List Extraction) (hn : 1 ≤ n)
    (hfail : ∀ t, 2 ≤ t → t ≤ n → o t = .error ())
    (hok : o 1 = .ok exts) :
    retryExtract o n = (some exts, n) := by
  induction n with
  | zero => omega
  | succ n ih =>
    by_cases h0 : n = 0
    · subst h0
      rw [retryExtract, hok]
    · rw [retryExtract, hfail (n + 1) (by omega) (by omega),
        ih (by omega) (fun t h1 h2 => hfail t h1 (by omega))]

/-- C4: with the default bound R = 5, a sentence whose service calls
raise on exactly the first R-1 attempts and succeed on attempt R
contributes its connections to the store and bumps the worker's
processed count by one; a sentence whose R attempts all raise
contributes nothing, leaves the processed count unchanged, is logged at
error level as dropped, and the worker moves on to the next item. -/
theorem C4_retry_semantics
    (oracleA oracleB : DocumentSentence → ℕ → Except Unit (List Extraction))
    (ds : DocumentSentence) (exts : List Extraction) (st : WorkerState)
    (rest : List DocumentSentence)
    (hAfail : ∀ t, 2 ≤ t → t ≤ RELATIONSHIP_EXTRACTION_SERVICE_RETRIES →
      oracleA ds t = .error ())
    (hAok : oracleA ds 1 = .ok exts)
    (hBfail : ∀ t, 1 ≤ t → t ≤ RELATIONSHIP_EXTRACTION_SERVICE_RETRIES →
      oracleB ds t = .error ()) :
    build_connections_from_document oracleA st (ds :: rest) =
      build_connections_from_document oracleA
        { st with
          connection_list := st.connection_list ++ connections_of exts ds.document
          sentences_processed := st.sentences_processed + 1
          service_calls :=
            st.service_calls + RELATIONSHIP_EXTRACTION_SERVICE_RETRIES } rest ∧
    build_connections_from_document oracleB st (ds :: rest) =
      build_connections_from_document oracleB
        { st with
          service_calls := st.service_calls + RELATIONSHIP_EXTRACTION_SERVICE_RETRIES
          error_logs := st.error_logs + 1 } rest := by
  constructor
  · rw [build_connections_from_document, List.foldl_cons]
    rw [show process_sentence oracleA st ds =
        { st with
          connection_list := st.connection_list ++ connections_of exts ds.document
          sentences_processed := st.sentences_processed + 1
          service_calls :=
            st.service_calls + RELATIONSHIP_EXTRACTION_SERVICE_RETRIES } from by
      rw [process_sentence,
        retryExtract_last_success (oracleA ds) _ exts (by decide) hAfail hAok]
      change WorkerState.mk
        (List.foldl (fun l ext => build_connection_from_extraction ext ds.document l)
          st.connection_list exts)
        (st.sentences_processed + 1)
        (st.service_calls + RELATIONSHIP_EXTRACTION_SERVICE_RETRIES)
        st.error_logs = _
      rw [foldl_build_append]]
    rfl
  · rw [build_connections_from_document, List.foldl_cons]
    rw [show process_sentence oracleB st ds =
        { st with
          service_calls := st.service_calls + RELATIONSHIP_EXTRACTION_SERVICE_RETRIES
          error_logs := st.error_logs + 1 } from by
      rw [process_sentence, retryExtract_all_fail (oracleB ds) _ hBfail]]
    rfl

/-- Witness for C4 at the two stub services. -/
theorem C4_witness :
    build_connections_from_document oracleSucceedLast ⟨[], 0, 0, 0⟩ [ds1] =
      build_connections_from_document oracleSucceedLast
        { WorkerState.mk [] 0 0 0 with
          connection_list := [] ++ connections_of [ext1] ds1.document
          sentences_processed := 0 + 1
          service_calls := 0 + RELATIONSHIP_EXTRACTION_SERVICE_RETRIES } [] ∧
    build_connections_from_document oracleAlwaysFail ⟨[], 0, 0, 0⟩ [ds1] =
      build_connections_from_document oracleAlwaysFail
        { WorkerState.mk [] 0 0 0 with
          service_calls := 0 + RELATIONSHIP_EXTRACTION_SERVICE_RETRIES
          error_logs := 0 + 1 } [] :=
  C4_retry_semantics oracleSucceedLast oracleAlwaysFail ds1 [ext1] ⟨[], 0, 0, 0⟩ []
    (by intro t h1 _; simp [oracleSucceedLast, h1])
    (by decide)
    (by intro t _ _; rfl)

/-! ### Cache hit and the extraction phase -/

/-- C2 (amended): a run whose primary checkpoint file exists and parses
to a non-empty connection list seeds the store verbatim from the file
and skips the extraction phase entirely -- zero service calls and zero
enqueued sentences. -/
theorem C2_cache_hit_skips_extraction
    (cacheFile : Option (List (List String))) (cs : List EntityConnection)
    (oracle : DocumentSentence → ℕ → Except Unit (List Extraction))
    (documents : List Document)
    (hcache : get_cache_connections cacheFile = .ok (some cs))
    (hne : cs ≠ []) :
    init_connection_list cacheFile = .ok cs ∧
    build_connections_from_documents oracle cs documents = ⟨cs, 0, 0⟩ := by
  constructor
  · rw [init_connection_list, hcache]
  · rw [build_connections_from_documents, if_pos (List.length_pos.mpr hne)]

/-- Witness for C2 at a concrete one-connection checkpoint. -/
theorem C2_witness :
    init_connection_list (some (cache_data [connA])) = .ok [connA] ∧
    build_connections_from_documents oracleAlwaysFail [connA] [doc1] =
      ⟨[connA], 0, 0⟩ :=
  C2_cache_hit_skips_extraction (some (cache_data [connA])) [connA]
    oracleAlwaysFail [doc1] (by decide) (by decide)

/-- C2, as stated, is false: an existing but empty checkpoint file seeds
the store with the empty list, and the extraction phase then runs --
here one sentence is enqueued and the service is called once. -/
theorem C2_counterexample :
    init_connection_list (some []) = .ok [] ∧
    (build_connections_from_documents (fun _ _ => .ok []) [] [doc1]).sentences_enqueued = 1 ∧
    (build_connections_from_documents (fun _ _ => .ok []) [] [doc1]).service_calls = 1 := by
  decide

/-- C3 (amended): the two filter passes are applied to the store
unconditionally -- also when the store was seeded from the checkpoint.
On a cache hit the pipeline's filtered store is
`filter_connections stopWords cs`, not `cs`. -/
theorem C3_filters_apply_to_cached_store
    (stopWords : List String)
    (oracle : DocumentSentence → ℕ → Except Unit (List Extraction))
    (cacheFile : Option (List (List String))) (documents : List Document)
    (cs : List EntityConnection)
    (hcache : get_cache_connections cacheFile = .ok (some cs))
    (hne : cs ≠ []) :
    main_filtered_store stopWords oracle cacheFile documents =
      .ok (filter_connections stopWords cs, ⟨cs, 0, 0⟩) := by
  have hinit : init_connection_list cacheFile = .ok cs := by
    rw [init_connection_list, hcache]
  rw [main_filtered_store, hinit]
  have hphase : build_connections_from_documents oracle cs documents = ⟨cs, 0, 0⟩ := by
    rw [build_connections_from_documents, if_pos (List.length_pos.mpr hne)]
  simp only [hphase]

/-- Witness for the amended C3 at a concrete cache-seeded run. -/
theorem C3_witness :
    main_filtered_store [] oracleAlwaysFail (some (cache_data [connA])) [] =
      .ok (filter_connections [] [connA], ⟨[connA], 0, 0⟩) :=
  C3_filters_apply_to_cached_store [] oracleAlwaysFail (some (cache_data [connA]))
    [] [connA] (by decide) (by decide)

/-- C3, as stated, is false: a store seeded from the checkpoint IS
filtered.  Seeding with two value-equal connections, the pipeline's
final store has the duplicate removed. -/
theorem C3_counterexample :
    main_filtered_store [] oracleAlwaysFail (some (cache_data [connA, connA])) [] =
      .ok ([connA], ⟨[connA, connA], 0, 0⟩) ∧
    [connA] ≠ [connA, connA] := by
  decide

theorem sched_step_length (jobs : List (List EntityConnection)) :
    ∀ (store : List EntityConnection) (w : ℕ),
      (sched_step store jobs w).1.length +
          ((sched_step store jobs w).2.map List.length).sum =
        store.length + (jobs.map List.length).sum := by
  induction jobs with
  | nil => intro store w; rfl
  | cons j js ih =>
    intro store w
    cases w with
    | zero =>
      cases j with
      | nil => rfl
      | cons x rest =>
        simp [sched_step]
        omega
    | succ w =>
      have := ih store w
      simp only [sched_step, List.map_cons, List.sum_cons]
      omega

theorem sched_step_succ (store : List EntityConnection) (j : List EntityConnection)
    (js : List (List EntityConnection)) (w : ℕ) :
    sched_step store (j :: js) (w + 1) =
      ((sched_step store js w).1, j :: (sched_step store js w).2) := by
  simp [sched_step]

theorem ofList_append (l₁ l₂ : List EntityConnection) :
    Multiset.ofList (l₁ ++ l₂) = Multiset.ofList l₁ + Multiset.ofList l₂ := rfl

theorem sched_step_multiset (jobs : List (List EntityConnection)) :
    ∀ (store : List EntityConnection) (w : ℕ),
      Multiset.ofList (sched_step store jobs w).1 +
          ((sched_step store jobs w).2.map Multiset.ofList).sum =
        Multiset.ofList store + (jobs.map Multiset.ofList).sum := by
  induction jobs with
  | nil => intro store w; rfl
  | cons j js ih =>
    intro store w
    cases w with
    | zero =>
      cases j with
      | nil => rfl
      | cons x rest =>
        rw [show sched_step store ((x :: rest) :: js) 0 = (store ++ [x], rest :: js)
          from rfl]
        simp only [List.map_cons, List.sum_cons]
        rw [ofList_append store [x],
          show (x :: rest : List EntityConnection) = [x] ++ rest from rfl,
          ofList_append [x] rest]
        abel
    | succ w =>
      rw [sched_step_succ]
      have hrec := ih store w
      simp only [List.map_cons, List.sum_cons]
      rw [add_left_comm, hrec, add_left_comm]

theorem run_schedule_cons (s : ℕ) (sched : List ℕ) (store : List EntityConnection)
    (jobs : List (List EntityConnection)) :
    run_schedule (s :: sched) store jobs =
      run_schedule sched (sched_step store jobs s).1 (sched_step store jobs s).2 := by
  simp [run_schedule]

theorem run_schedule_length (schedule : List ℕ) :
    ∀ (store : List EntityConnection) (jobs : List (List EntityConnection)),
      (run_schedule schedule store jobs).1.length +
          ((run_schedule schedule store jobs).2.map List.length).sum =
        store.length + (jobs.map List.length).sum := by
  induction schedule with
  | nil => intro store jobs; rfl
  | cons s sched ih =>
    intro store jobs
    rw [run_schedule_cons, ih, sched_step_length]

theorem run_schedule_multiset (schedule : List ℕ) :
    ∀ (store : List EntityConnection) (jobs : List (List EntityConnection)),
      Multiset.ofList (run_schedule schedule store jobs).1 +
          ((run_schedule schedule store jobs).2.map Multiset.ofList).sum =
        Multiset.ofList store + (jobs.map Multiset.ofList).sum := by
  induction schedule with
  | nil => intro store jobs; rfl
  | cons s sched ih =>
    intro store jobs
    rw [run_schedule_cons, ih, sched_step_multiset]

theorem sched_step_jobs_length (jobs : List (List EntityConnection)) :
    ∀ (store : List EntityConnection) (w : ℕ),
      (sched_step store jobs w).2.length = jobs.length := by
  induction jobs with
  | nil => intro store w; rfl
  | cons j js ih =>
    intro store w
    cases w with
    | zero =>
      cases j with
      | nil => rfl
      | cons x rest => rfl
    | succ w =>
      rw [sched_step_succ]
      simp [ih store w]

theorem run_schedule_jobs_length (schedule : List ℕ) :
    ∀ (store : List EntityConnection) (jobs : List (List EntityConnection)),
      (run_schedule schedule store jobs).2.length = jobs.length := by
  induction schedule with
  | nil => intro store jobs; rfl
  | cons s sched ih =>
    intro store jobs
    rw [run_schedule_cons, ih, sched_step_jobs_length]

theorem pending_sched_step_self (jobs : List (List EntityConnection)) :
    ∀ (store : List EntityConnection) (w : ℕ),
      pending (sched_step store jobs w).2 w = (pending jobs w).tail := by
  induction jobs with
  | nil => intro store w; cases w <;> rfl
  | cons j js ih =>
    intro store w
    cases w with
    | zero =>
      cases j with
      | nil => rfl
      | cons x rest => rfl
    | succ w =>
      rw [sched_step_succ]
      exact ih store w

theorem pending_sched_step_other (jobs : List (List EntityConnection)) :
    ∀ (store : List EntityConnection) (w v : ℕ), v ≠ w →
      pending (sched_step store jobs w).2 v = pending jobs v := by
  induction jobs with
  | nil => intro store w v _; cases v <;> rfl
  | cons j js ih =>
    intro store w v hne
    cases w with
    | zero =>
      cases j with
      | nil => rfl
      | cons x rest =>
        cases v with
        | zero => exact absurd rfl hne
        | succ v => rfl
    | succ w =>
      rw [sched_step_succ]
      cases v with
      | zero => rfl
      | succ v => exact ih store w v (by omega)

theorem run_schedule_pending (schedule : List ℕ) :
    ∀ (store : List EntityConnection) (jobs : List (List EntityConnection)) (w : ℕ),
      schedule.count w ≤ (pending jobs w).length →
      (pending (run_schedule schedule store jobs).2 w).length =
        (pending jobs w).length - schedule.count w := by
  induction schedule with
  | nil => intro store jobs w _; simp [run_schedule]
  | cons s sched ih =>
    intro store jobs w hcount
    rw [run_schedule_cons]
    by_cases hsw : s = w
    · subst hsw
      have hc : (s :: sched).count s = sched.count s + 1 := List.count_cons_self s sched
      have hlen' : (pending (sched_step store jobs s).2 s).length =
          (pending jobs s).length - 1 := by
        rw [pending_sched_step_self, List.length_tail]
      rw [ih (sched_step store jobs s).1 (sched_step store jobs s).2 s
        (by rw [hlen']; rw [hc] at hcount; omega), hlen', hc]
      rw [hc] at hcount
      omega
    · have hother : pending (sched_step store jobs s).2 w = pending jobs w :=
        pending_sched_step_other jobs store s w (fun h => hsw h.symm)
      have hcnt : (s :: sched).count w = sched.count w :=
        List.count_cons_of_ne (fun h => hsw h.symm) sched
      rw [ih (sched_step store jobs s).1 (sched_step store jobs s).2 w
        (by rw [hother, ← hcnt]; exact hcount), hother, hcnt]

theorem pending_mem (L : List (List EntityConnection)) :
    ∀ w, w < L.length → pending L w ∈ L := by
  induction L with
  | nil => intro w hw; simp at hw
  | cons j js ih =>
    intro w hw
    cases w with
    | zero => exact List.mem_cons_self _ _
    | succ w => exact List.mem_cons_of_mem _ (ih w (by simpa using hw))

theorem pending_all_nil_replicate (L : List (List EntityConnection)) :
    (∀ w, w < L.length → pending L w = []) → L = List.replicate L.length [] := by
  induction L with
  | nil => intro _; rfl
  | cons j js ih =>
    intro h
    have h0 : j = [] := h 0 (by simp)
    have ht : js = List.replicate js.length [] :=
      ih (fun w hw => h (w + 1) (by simpa using hw))
    rw [List.length_cons, List.replicate_succ, h0]
    exact congrArg (List.cons []) ht

/-- C9: with atomic appends, no interleaving of W workers each holding M
connections loses or duplicates an entry: after any schedule that gives
every worker its M turns, the store holds exactly W*M entries and its
multiset of entries is exactly the combined multiset of the workers'
inputs (value-equal duplicates present in the input stay present). -/
theorem C9_concurrent_append_correct (W M : ℕ) (jobs : List (List EntityConnection))
    (schedule : List ℕ)
    (hW : jobs.length = W)
    (hM : ∀ j ∈ jobs, j.length = M)
    (hcount : ∀ w, w < W → schedule.count w = M) :
    (run_schedule schedule [] jobs).1.length = W * M ∧
    Multiset.ofList (run_schedule schedule [] jobs).1 =
      (jobs.map Multiset.ofList).sum := by
  have hjobs_sum : (jobs.map List.length).sum = W * M := by
    have hrep : jobs.map List.length = List.replicate W M := by
      apply List.eq_replicate_iff.mpr
      constructor
      · simp [hW]
      · intro b hb
        obtain ⟨j, hj, rfl⟩ := List.mem_map.mp hb
        exact hM j hj
    rw [hrep, List.sum_replicate, smul_eq_mul]
  have hnil : ∀ w, w < (run_schedule schedule [] jobs).2.length →
      pending (run_schedule schedule [] jobs).2 w = [] := by
    intro w hw
    rw [run_schedule_jobs_length, hW] at hw
    have hplen : (pending jobs w).length = M :=
      hM _ (pending_mem jobs w (by omega))
    have hp := run_schedule_pending schedule [] jobs w
      (le_of_eq ((hcount w hw).trans hplen.symm))
    rw [hplen, hcount w hw, Nat.sub_self] at hp
    exact List.length_eq_zero.mp hp
  have hrepl : (run_schedule schedule [] jobs).2 =
      List.replicate (run_schedule schedule [] jobs).2.length [] :=
    pending_all_nil_replicate _ hnil
  have hzero : (((run_schedule schedule [] jobs).2).map List.length).sum = 0 := by
    rw [hrepl]
    simp
  have hzerom : (((run_schedule schedule [] jobs).2).map Multiset.ofList).sum = 0 := by
    rw [hrepl]
    have hofnil : Multiset.ofList ([] : List EntityConnection) = 0 := rfl
    simp [hofnil]
  constructor
  · have hcons := run_schedule_length schedule [] jobs
    rw [hzero, hjobs_sum] at hcons
    simpa using hcons
  · have hconsm := run_schedule_multiset schedule [] jobs
    rw [hzerom] at hconsm
    have hofnil : Multiset.ofList ([] : List EntityConnection) = 0 := rfl
    rw [hofnil] at hconsm
    simpa using hconsm

/-- Witness for C9: two workers with one connection each under the
schedule that lets worker 1 go first. -/
theorem C9_witness :
    (run_schedule [1, 0] [] [[connA], [connB]]).1.length = 2 * 1 ∧
    Multiset.ofList (run_schedule [1, 0] [] [[connA], [connB]]).1 =
      ([[connA], [connB]].map Multiset.ofList).sum :=
  C9_concurrent_append_correct 2 1 [[connA], [connB]] [1, 0] rfl
    (by decide)
    (by
      intro w hw
      interval_cases w <;> rfl)
